import Mathlib

set_option maxRecDepth 100000

/-!
Verification of the self-contained page-layout and file-format emitter
(`_minimal_pdf_fallback` and its helpers in `src/docgen/engine.py`).

The byte stream is modelled as `List Char`, one character per latin-1 byte
(every byte the emitter produces outside stream payloads is ASCII, and
payloads are latin-1 encoded with length-preserving replacement).
Python floats are modelled as exact rationals `ℚ`; every constant the
fallback uses (`1.4`, `0.5`, `12`, `72`, `612`, `792`) is exactly
representable and the layout comparisons are far from the float rounding
error, so the branch structure is identical.
-/

namespace Docgen

/-! ### Word splitting (`text.split()` in `wrap_text`, engine.py:953)

Python's `str.split()` with no argument splits on runs of whitespace and
discards empty pieces.  `pwords` is that function on `List Char`,
written with an accumulator so that it is structurally recursive. -/

def pwordsAux : List Char → List Char → List (List Char)
  | [], acc => if acc = [] then [] else [acc.reverse]
  | c :: cs, acc =>
    if c.isWhitespace then
      if acc = [] then pwordsAux cs [] else acc.reverse :: pwordsAux cs []
    else pwordsAux cs (c :: acc)

def pwords (l : List Char) : List (List Char) := pwordsAux l []

/-- A word as produced by `pwords`: nonempty and free of whitespace. -/
def wordOK (u : List Char) : Prop := u ≠ [] ∧ ∀ c ∈ u, ¬ c.isWhitespace

/-! ### The greedy wrapper (`wrap_text`, engine.py:952-965)

The Python `for word in words` loop carrying `result_lines` and `current`
becomes structural recursion over the word list carrying `(acc, cur)`. -/

def wrapLoop (cpl : ℕ) : List (List Char) → List Char → List (List Char) →
    List (List Char) × List Char
  | acc, cur, [] => (acc, cur)
  | acc, cur, word :: rest =>
    if cur.length + word.length + 1 ≤ cpl then
      wrapLoop cpl acc (if cur = [] then word else cur ++ ' ' :: word) rest
    else
      wrapLoop cpl (if cur = [] then acc else acc ++ [cur]) word rest

def wrap_text (text : List Char) (cpl : ℕ) : List (List Char) :=
  let p := wrapLoop cpl [] [] (pwords text)
  let res := if p.2 = [] then p.1 else p.1 ++ [p.2]
  if res = [] then [[]] else res

/-- Words joined by single spaces, the shape of `current` in the loop. -/
def joinSp : List (List Char) → List Char
  | [] => []
  | [u] => u
  | u :: v :: rest => u ++ ' ' :: joinSp (v :: rest)

/-! ### PDF string escaping (`escape_pdf`, engine.py:967-968) -/


/-- Python `str.replace` with a one-character needle substitutes
character-wise. -/
def pyReplaceChar (l : List Char) (old : Char) (new : List Char) : List Char :=
  l.flatMap fun c => if c = old then new else [c]

def escape_pdf (l : List Char) : List Char :=
  pyReplaceChar (pyReplaceChar (pyReplaceChar l '\\' ['\\', '\\'])
    '(' ['\\', '(']) ')' ['\\', ')']

/-- The per-character effect of the three sequential replacements, with the
backslash substitution applied first. -/
def escChar (c : Char) : List Char :=
  if c = '\\' then ['\\', '\\']
  else if c = '(' then ['\\', '(']
  else if c = ')' then ['\\', ')']
  else [c]

/-- Scanning left to right, a backslash escapes the following character;
no structurally significant character may appear unescaped. -/
def wellEscaped : List Char → Bool
  | [] => true
  | c :: rest =>
    if c = '\\' then
      match rest with
      | [] => false
      | _ :: rest2 => wellEscaped rest2
    else if c = '(' ∨ c = ')' then false
    else wellEscaped rest

/-- Undo escaping: a backslash makes the next character literal. -/
def unescape : List Char → List Char
  | [] => []
  | c :: rest =>
    if c = '\\' then
      match rest with
      | [] => []
      | d :: rest2 => d :: unescape rest2
    else c :: unescape rest

/-! ### Page compositor (engine.py:938-1022)

The compositor appends operator lines to `current_stream_lines`; the lines
are kept structured (`Item`) so that draw commands remain inspectable, and
`renderItem` produces exactly the string the source appends. -/

structure DrawCmd where
  fontRef : String
  fontSize : ℕ
  x : ℚ
  y : ℚ
  text : List Char
deriving DecidableEq

inductive Item where
  | bg : Item
  | bt : Item
  | et : Item
  | colorText : Item
  | draw : DrawCmd → Item
deriving DecidableEq

structure CompState where
  y : ℚ
  cur : List Item
  streams : List (List Item)
deriving DecidableEq

def pageWidth : ℕ := 612

def pageHeight : ℕ := 792

def margin : ℕ := 72

/-- `flush_page` (engine.py:944-950): join the pending lines into a content
stream, clear them, reset the cursor to `page_height - margin`. -/
def flushPage (st : CompState) : CompState :=
  { y := (pageHeight : ℚ) - margin, cur := [], streams := st.streams ++ [st.cur] }

/-- One wrapped line inside the record loop (engine.py:997-1019). -/
def doLine (isHeading : Bool) (wline : List Char) (st : CompState) : CompState :=
  let fontSize : ℕ := if isHeading then 16 else 11
  let lineHeight : ℚ := (fontSize : ℚ) * 1.4
  let fontRef : String := if isHeading then "/F2" else "/F1"
  let st :=
    if st.y - lineHeight < (margin : ℚ) then
      let st := flushPage { st with cur := st.cur ++ [Item.et] }
      { st with cur := [Item.bg, Item.bt, Item.colorText] }
    else st
  let x : ℚ :=
    if isHeading then
      max (margin : ℚ) (((pageWidth : ℚ) - (wline.length : ℚ) * (fontSize : ℚ) * 0.5) / 2)
    else (margin : ℚ)
  { st with
    cur := st.cur ++ [Item.draw ⟨fontRef, fontSize, x, st.y, wline⟩],
    y := st.y - lineHeight }

/-- One `(text, is_heading)` record (engine.py:976-1019). -/
def doRecord (st : CompState) (rec : String × Bool) : CompState :=
  if rec.1 = "" then
    let st := { st with y := st.y - 12 }
    if st.y < (margin : ℚ) then
      let st := flushPage { st with cur := st.cur ++ [Item.et] }
      { st with cur := [Item.bg, Item.bt] }
    else st
  else
    let isHeading := rec.2
    let st := { st with cur := st.cur ++ [Item.colorText] }
    let wrapped := wrap_text rec.1.data (if isHeading then 75 else 85)
    wrapped.foldl (fun st wline => doLine isHeading wline st) st

/-- The whole record loop: initial background and `BT`, the loop, the final
`ET` and unconditional flush (engine.py:970-1022). -/
def initState : CompState :=
  { y := (pageHeight : ℚ) - margin, cur := [Item.bg, Item.bt], streams := [] }

def composite (records : List (String × Bool)) : List (List Item) :=
  let st := records.foldl doRecord initState
  (flushPage { st with cur := st.cur ++ [Item.et] }).streams

/-- The draw commands of a content stream, in order. -/
def drawsOf (items : List Item) : List DrawCmd :=
  items.filterMap fun i =>
    match i with
    | Item.draw c => some c
    | _ => none

/-! ### Rendering items back to the strings the source builds -/


/-- Python `round` / `"%.0f"` formatting: round half to even.  (The cursor
values the fallback produces are never exact halves.) -/
def pyRound (q : ℚ) : ℤ :=
  let f := Int.floor q
  let r := q - f
  if r < 1 / 2 then f else if 1 / 2 < r then f + 1
  else if f % 2 = 0 then f else f + 1

def fmt0 (q : ℚ) : List Char := (toString (pyRound q)).data

def natStr (n : ℕ) : List Char := (toString n).data

def renderItem : Item → List Char
  | Item.bg => "0.231 0.231 0.231 rg 0 0 612 792 re f".data
  | Item.bt => "BT".data
  | Item.et => "ET".data
  | Item.colorText => "0.91 0.91 0.91 rg".data
  | Item.draw c =>
    c.fontRef.data ++ " ".data ++ natStr c.fontSize ++ " Tf ".data ++
      fmt0 c.x ++ " ".data ++ fmt0 c.y ++ " Td (".data ++
      escape_pdf c.text ++ ") Tj".data

/-- Python `"\n".join`. -/
def joinNL : List (List Char) → List Char
  | [] => []
  | [u] => u
  | u :: v :: rest => u ++ '\n' :: joinNL (v :: rest)

/-- `encode("latin-1", errors="replace")`: bytes are modelled one `Char`
per byte; characters beyond latin-1 become a question mark. -/
def encodeLatin1 (l : List Char) : List Char :=
  l.map fun c => if c.val ≤ 255 then c else '?'

def renderStream (items : List Item) : List Char :=
  encodeLatin1 (joinNL (items.map renderItem))

/-! ### Object allocation (`add_obj`, engine.py:920-936, 1024-1028) -/

structure Alloc where
  objId : ℕ
  objects : List (ℕ × Option (List Char))
deriving DecidableEq

/-- `add_obj`: bump the counter, append `(obj_id, content)`, return the id. -/
def add_obj (a : Alloc) (content : Option (List Char)) : ℕ × Alloc :=
  (a.objId + 1,
   { objId := a.objId + 1, objects := a.objects ++ [(a.objId + 1, content)] })

def fontRegularBytes : List Char :=
  "<< /Type /Font /Subtype /Type1 /BaseFont /Helvetica >>".data

def fontBoldBytes : List Char :=
  "<< /Type /Font /Subtype /Type1 /BaseFont /Helvetica-Bold >>".data

/-- Allocation of the four fixed objects (engine.py:929-936), in call
order: catalog, page tree, regular font, bold font. -/
def catalogAlloc : ℕ × Alloc := add_obj { objId := 0, objects := [] } none

def catalog_id : ℕ := catalogAlloc.1

def pagesAlloc : ℕ × Alloc := add_obj catalogAlloc.2 none

def pages_id : ℕ := pagesAlloc.1

def fontAlloc : ℕ × Alloc := add_obj pagesAlloc.2 (some fontRegularBytes)

def font_id : ℕ := fontAlloc.1

def fontBoldAlloc : ℕ × Alloc := add_obj fontAlloc.2 (some fontBoldBytes)

def font_bold_id : ℕ := fontBoldAlloc.1

def allocFixed : Alloc := fontBoldAlloc.2

/-- One step of the per-page allocation loop (engine.py:1025-1028): a
stream object then a page object, collecting `(page_id, stream_id)`. -/
def allocStep (st : List (ℕ × ℕ) × Alloc) (sb : List Char) :
    List (ℕ × ℕ) × Alloc :=
  let s := add_obj st.2 (some sb)
  let p := add_obj s.2 none
  (st.1 ++ [(p.1, s.1)], p.2)

/-- The per-page allocation loop (engine.py:1024-1028). -/
def allocPages (contentStreams : List (List Char)) :
    List (ℕ × ℕ) × Alloc :=
  contentStreams.foldl allocStep ([], allocFixed)

/-! ### The writer (`write_obj`, engine.py:1030-1037) -/

structure Writer where
  parts : List Char
  offsets : List (ℕ × ℕ)
deriving DecidableEq

def headerBytes : List Char := "%PDF-1.4\n".data

/-- The marker `f"{oid} 0 obj\n"` that `write_obj` places at the recorded
offset. -/
def objMarker (oid : ℕ) : List Char := natStr oid ++ " 0 obj\n".data

/-- `write_obj`: record the current length as the offset of `oid`, then
append marker, body and `endobj`. -/
def write_obj (wr : Writer) (oid : ℕ) (data : List Char) : Writer :=
  { parts := wr.parts ++ (objMarker oid ++ data ++ "\nendobj\n".data),
    offsets := wr.offsets ++ [(oid, wr.parts.length)] }

def catalogBody : List Char :=
  ("<< /Type /Catalog /Pages " ++ toString pages_id ++ " 0 R >>").data

/-- `" ".join(f"{pid} 0 R" for pid, _ in page_ids)` plus the dict around it
(engine.py:1041-1043). -/
def kidsBody (pageIds : List (ℕ × ℕ)) : List Char :=
  "<< /Type /Pages /Kids [".data ++
    (joinSp (pageIds.map fun p => natStr p.1 ++ " 0 R".data)) ++
    "] /Count ".data ++ natStr pageIds.length ++ " >>".data

/-- The lookup of a stream's bytes in `objects` (engine.py:1050-1054). -/
def lookupStream (objs : List (ℕ × Option (List Char))) (sid : ℕ) : List Char :=
  (((objs.find? fun p => p.1 = sid).bind Prod.snd).getD [])

def streamObjBody (data : List Char) : List Char :=
  "<< /Length ".data ++ natStr data.length ++ " >>\nstream\n".data ++
    data ++ "\nendstream".data

def pageObjBody (sid : ℕ) : List Char :=
  ("<< /Type /Page /Parent " ++ toString pages_id ++ " 0 R " ++
    "/MediaBox [0 0 " ++ toString pageWidth ++ " " ++ toString pageHeight ++
    "] /Contents " ++ toString sid ++ " 0 R /Resources << /Font << /F1 " ++
    toString font_id ++ " 0 R /F2 " ++ toString font_bold_id ++
    " 0 R >> >> >>").data

/-- One step of the per-page write loop (engine.py:1049-1066): look up the
stream bytes, write the stream object, then the page object. -/
def writeStep (objs : List (ℕ × Option (List Char))) (wr : Writer)
    (ps : ℕ × ℕ) : Writer :=
  write_obj (write_obj wr ps.2 (streamObjBody (lookupStream objs ps.2)))
    ps.1 (pageObjBody ps.2)

/-- The write phase (engine.py:1039-1066): catalog, page tree, the two
fonts, then per page the stream object and the page object. -/
def writeFixed (contentStreams : List (List Char)) : Writer :=
  write_obj (write_obj (write_obj (write_obj
    { parts := headerBytes, offsets := [] }
    catalog_id catalogBody)
    pages_id (kidsBody (allocPages contentStreams).1))
    font_id fontRegularBytes)
    font_bold_id fontBoldBytes

def writeAll (contentStreams : List (List Char)) : Writer :=
  (allocPages contentStreams).1.foldl
    (writeStep (allocPages contentStreams).2.objects)
    (writeFixed contentStreams)

/-! ### Cross-reference table and trailer (engine.py:1068-1082) -/

def lookupOff (offs : List (ℕ × ℕ)) (oid : ℕ) : ℕ :=
  (((offs.find? fun p => p.1 = oid).map Prod.snd).getD 0)

/-- `f"{offset:010d}"`. -/
def pad10 (n : ℕ) : List Char :=
  List.replicate (10 - (natStr n).length) '0' ++ natStr n

def freeEntryLine : List Char := "0000000000 65535 f \n".data

/-- The entry lines of the xref section: the free entry for identity 0,
then one entry per allocated object id (engine.py:1071-1074). -/
def xrefEntryLines (objId : ℕ) (offs : List (ℕ × ℕ)) : List (List Char) :=
  freeEntryLine ::
    (List.range' 1 objId).map fun oid => pad10 (lookupOff offs oid) ++ " 00000 n \n".data

def trailerBytes (objId : ℕ) : List Char :=
  ("trailer\n<< /Size " ++ toString (objId + 1) ++ " /Root " ++
    toString catalog_id ++ " 0 R >>\n").data

/-- The offset recorded for the `startxref` line (engine.py:1068). -/
def xrefOffsetOf (contentStreams : List (List Char)) : ℕ :=
  (writeAll contentStreams).parts.length

/-- Everything appended after the object bodies (engine.py:1069-1082): the
xref section, the trailer, `startxref` with the captured offset, `%%EOF`. -/
def tailBytes (contentStreams : List (List Char)) : List Char :=
  "xref\n".data ++ "0 ".data ++
    natStr ((allocPages contentStreams).2.objId + 1) ++ "\n".data ++
    (xrefEntryLines (allocPages contentStreams).2.objId
      (writeAll contentStreams).offsets).flatten ++
    trailerBytes (allocPages contentStreams).2.objId ++
    "startxref\n".data ++ natStr (xrefOffsetOf contentStreams) ++ "\n".data ++
    "%%EOF\n".data

def assembledBytes (contentStreams : List (List Char)) : List Char :=
  (writeAll contentStreams).parts ++ tailBytes contentStreams

/-- The full fallback pipeline: composite, render each page's stream,
assemble. -/
def minimalPdf (records : List (String × Bool)) : List Char :=
  assembledBytes ((composite records).map renderStream)

/-- A wrapped output line: a nonempty group of words of the input joined
by single spaces; a line holding two or more words fits in `cpl`. -/
def lineOK (cpl : ℕ) (allW : List (List Char)) (l : List Char) : Prop :=
  ∃ g, g ≠ [] ∧ (∀ u ∈ g, wordOK u ∧ u ∈ allW) ∧ l = joinSp g ∧
    (1 < g.length → l.length ≤ cpl)

/-! ## Compositor invariants -/


/-- The y of every draw command lies in `(margin, pageHeight - margin]`. -/
def drawsOK (items : List Item) : Prop :=
  ∀ c ∈ drawsOf items, (72 : ℚ) < c.y ∧ c.y ≤ 720

def stateOK (st : CompState) : Prop :=
  st.y ≤ 720 ∧ drawsOK st.cur ∧ ∀ s ∈ st.streams, drawsOK s

/-! ## Boolean comparators

The derived decidable equality on `ℚ` does not evaluate well inside
`decide`; these comparators check `num`/`den` directly and are proven
sound, so concrete runs of the compositor can be checked by evaluation. -/

def beqQ (a b : ℚ) : Bool := a.num == b.num && a.den == b.den

def beqDrawCmd (a b : DrawCmd) : Bool :=
  a.fontRef == b.fontRef && a.fontSize == b.fontSize &&
    beqQ a.x b.x && beqQ a.y b.y && a.text == b.text

def beqItem : Item → Item → Bool
  | Item.bg, Item.bg => true
  | Item.bt, Item.bt => true
  | Item.et, Item.et => true
  | Item.colorText, Item.colorText => true
  | Item.draw c, Item.draw d => beqDrawCmd c d
  | _, _ => false

def beqListWith (f : α → α → Bool) : List α → List α → Bool
  | [], [] => true
  | a :: as, b :: bs => f a b && beqListWith f as bs
  | _, _ => false

/-! ## End-to-end scenario inputs -/

def scenarioA : List (String × Bool) :=
  [("Title", true), ("", false), ("Hello world.", false)]

/-- Validity of the offset table: every recorded offset points into the
bytes built so far, at the start of that object marker. -/
def offsetsValid (wr : Writer) : Prop :=
  ∀ p ∈ wr.offsets, p.2 ≤ wr.parts.length ∧ objMarker p.1 <+: wr.parts.drop p.2

/-! ## Scenario B: pagination -/


/-- A family of short, distinct, non-emphasized one-line records. -/
def scenarioB (n : ℕ) : List (String × Bool) :=
  (List.range n).map (fun i => (toString i, false))

/-! ## Lemmas about escaping -/

theorem pyReplaceChar_nil (o : Char) (n : List Char) :
    pyReplaceChar [] o n = [] := rfl

theorem pyReplaceChar_cons (c : Char) (l : List Char) (o : Char) (n : List Char) :
    pyReplaceChar (c :: l) o n = (if c = o then n else [c]) ++ pyReplaceChar l o n := by
  simp [pyReplaceChar]

/-- The three sequential one-character replacements act character-wise:
they equal a single pass with `escChar`. -/
theorem escape_pdf_eq_flatMap (l : List Char) :
    escape_pdf l = l.flatMap escChar := by
  induction l with
  | nil => rfl
  | cons c l ih =>
    simp only [escape_pdf, pyReplaceChar_cons, List.flatMap_cons] at *
    by_cases h1 : c = '\\'
    · subst h1
      simp only [if_pos rfl, escChar] at *
      simp [pyReplaceChar_cons, ← ih, escape_pdf]
    · by_cases h2 : c = '('
      · subst h2
        simp only [escChar] at *
        simp [pyReplaceChar_cons, h1, ← ih, escape_pdf]
      · by_cases h3 : c = ')'
        · subst h3
          simp only [escChar] at *
          simp [pyReplaceChar_cons, h1, h2, ← ih, escape_pdf]
        · simp only [escChar] at *
          simp [pyReplaceChar_cons, h1, h2, h3, ← ih, escape_pdf]

theorem wellEscaped_flatMap (l : List Char) :
    wellEscaped (l.flatMap escChar) = true := by
  induction l with
  | nil => rfl
  | cons c l ih =>
    simp only [List.flatMap_cons, escChar]
    by_cases h1 : c = '\\'
    · simp [h1, wellEscaped, ih]
    · by_cases h2 : c = '('
      · simp [h1, h2, wellEscaped, ih]
      · by_cases h3 : c = ')'
        · simp [h1, h2, h3, wellEscaped, ih]
        · rw [wellEscaped.eq_def]
          simp [h1, h2, h3, ih]

theorem unescape_flatMap (l : List Char) :
    unescape (l.flatMap escChar) = l := by
  induction l with
  | nil => rfl
  | cons c l ih =>
    simp only [List.flatMap_cons, escChar]
    by_cases h1 : c = '\\'
    · simp [h1, unescape, ih]
    · by_cases h2 : c = '('
      · simp [h1, h2, unescape, ih]
      · by_cases h3 : c = ')'
        · simp [h1, h2, h3, unescape, ih]
        · rw [unescape.eq_def]
          simp [h1, h2, h3, ih]

/-! ## Lemmas about word splitting and wrapping -/

theorem pwordsAux_wordOK (l : List Char) :
    ∀ acc, (∀ c ∈ acc, ¬ c.isWhitespace) →
      ∀ w ∈ pwordsAux l acc, wordOK w := by
  induction l with
  | nil =>
    intro acc hacc w hw
    rw [pwordsAux] at hw
    split at hw
    · simp at hw
    · rename_i hne
      rw [List.mem_singleton] at hw
      subst hw
      refine ⟨by simpa using hne, ?_⟩
      intro c hc
      exact hacc c (by simpa using hc)
  | cons c cs ih =>
    intro acc hacc w hw
    rw [pwordsAux] at hw
    split at hw
    · rename_i hws
      split at hw
      · exact ih [] (by intro c hc; simp at hc) w hw
      · rename_i hne
        rw [List.mem_cons] at hw
        rcases hw with hw | hw
        · subst hw
          refine ⟨by simpa using hne, ?_⟩
          intro d hd
          exact hacc d (by simpa using hd)
        · exact ih [] (by intro d hd; simp at hd) w hw
    · rename_i hws
      refine ih (c :: acc) ?_ w hw
      intro d hd
      rw [List.mem_cons] at hd
      rcases hd with hd | hd
      · subst hd; exact hws
      · exact hacc d hd

theorem pwords_wordOK (l : List Char) : ∀ w ∈ pwords l, wordOK w :=
  pwordsAux_wordOK l [] (by intro c hc; simp at hc)

theorem pwordsAux_append_ws {sp : Char} (hsp : sp.isWhitespace)
    (a : List Char) (b : List Char) :
    ∀ acc, pwordsAux (a ++ sp :: b) acc = pwordsAux a acc ++ pwords b := by
  induction a with
  | nil =>
    intro acc
    rw [List.nil_append, pwordsAux, pwordsAux]
    rw [if_pos hsp]
    split
    · rw [List.nil_append, pwords]
    · rfl
  | cons c cs ih =>
    intro acc
    rw [List.cons_append, pwordsAux, pwordsAux]
    by_cases hws : c.isWhitespace
    · rw [if_pos hws, if_pos hws]
      split
      · exact ih []
      · rw [ih [], List.cons_append]
    · rw [if_neg hws, if_neg hws]
      exact ih (c :: acc)

theorem pwords_append_ws {sp : Char} (hsp : sp.isWhitespace)
    (a b : List Char) : pwords (a ++ sp :: b) = pwords a ++ pwords b :=
  pwordsAux_append_ws hsp a b []

theorem pwordsAux_of_word (u : List Char) (hu : u ≠ [])
    (hnw : ∀ c ∈ u, ¬ c.isWhitespace) :
    ∀ acc, pwordsAux u acc = [acc.reverse ++ u] := by
  induction u with
  | nil => exact absurd rfl hu
  | cons c cs ih =>
    intro acc
    rw [pwordsAux, if_neg (hnw c (List.mem_cons_self c cs))]
    cases cs with
    | nil =>
      rw [pwordsAux, if_neg (by simp)]
      simp
    | cons d ds =>
      rw [ih (by simp) (by intro x hx; exact hnw x (List.mem_cons_of_mem c hx)) (c :: acc)]
      simp

theorem pwords_of_word {u : List Char} (hu : wordOK u) : pwords u = [u] := by
  rw [pwords, pwordsAux_of_word u hu.1 hu.2 []]
  rfl

theorem pwords_nil : pwords [] = [] := rfl

theorem joinSp_cons (u : List Char) {g : List (List Char)} (hg : g ≠ []) :
    joinSp (u :: g) = u ++ ' ' :: joinSp g := by
  cases g with
  | nil => exact absurd rfl hg
  | cons v rest => rw [joinSp]

theorem pwords_joinSp {g : List (List Char)} (hg : ∀ u ∈ g, wordOK u) :
    pwords (joinSp g) = g := by
  induction g with
  | nil => rfl
  | cons u g ih =>
    cases g with
    | nil =>
      rw [joinSp, pwords_of_word (hg u (List.mem_cons_self u []))]
    | cons v rest =>
      rw [joinSp_cons u (by simp),
        pwords_append_ws (by decide) u (joinSp (v :: rest)),
        pwords_of_word (hg u (List.mem_cons_self u (v :: rest))),
        ih (by intro w hw; exact hg w (List.mem_cons_of_mem u hw))]
      rfl

theorem joinSp_append_single {g : List (List Char)} (hg : g ≠ [])
    (u : List Char) : joinSp (g ++ [u]) = joinSp g ++ ' ' :: u := by
  induction g with
  | nil => exact absurd rfl hg
  | cons v g ih =>
    cases g with
    | nil => simp [joinSp]
    | cons w rest =>
      rw [List.cons_append, joinSp_cons v (by simp), joinSp_cons v (by simp),
        ih (by simp), List.append_assoc]
      rfl

theorem wrapLoop_inv (cpl : ℕ) (allW : List (List Char)) :
    ∀ (ws : List (List Char)), (∀ u ∈ ws, wordOK u ∧ u ∈ allW) →
    ∀ acc cur, (∀ l ∈ acc, lineOK cpl allW l) →
      (cur = [] ∨ lineOK cpl allW cur) →
      (∀ l ∈ (wrapLoop cpl acc cur ws).1, lineOK cpl allW l) ∧
      ((wrapLoop cpl acc cur ws).2 = [] ∨ lineOK cpl allW (wrapLoop cpl acc cur ws).2) ∧
      ((wrapLoop cpl acc cur ws).1.flatMap pwords ++ pwords (wrapLoop cpl acc cur ws).2
        = acc.flatMap pwords ++ pwords cur ++ ws) := by
  intro ws
  induction ws with
  | nil =>
    intro hws acc cur hacc hcur
    rw [wrapLoop]
    exact ⟨hacc, hcur, by simp⟩
  | cons word rest ih =>
    intro hws acc cur hacc hcur
    have hword := hws word (List.mem_cons_self word rest)
    have hrest : ∀ u ∈ rest, wordOK u ∧ u ∈ allW :=
      fun u hu => hws u (List.mem_cons_of_mem word hu)
    rw [wrapLoop]
    split
    · rename_i hcond
      by_cases hc : cur = []
      · rw [if_pos hc]
        subst hc
        have := ih hrest acc word hacc
          (Or.inr ⟨[word], by simp, by simpa using hword, rfl, by simp⟩)
        refine ⟨this.1, this.2.1, ?_⟩
        rw [this.2.2, pwords_nil, List.append_nil,
          pwords_of_word hword.1]
        simp
      · rw [if_neg hc]
        rcases hcur with hcur | hcur
        · exact absurd hcur hc
        obtain ⟨g, hgne, hgw, hgj, hglen⟩ := hcur
        have hjoin : cur ++ ' ' :: word = joinSp (g ++ [word]) := by
          rw [joinSp_append_single hgne, hgj]
        have hlOK : lineOK cpl allW (cur ++ ' ' :: word) := by
          refine ⟨g ++ [word], by simp, ?_, hjoin, ?_⟩
          · intro u hu
            rw [List.mem_append, List.mem_singleton] at hu
            rcases hu with hu | hu
            · exact hgw u hu
            · subst hu; exact hword
          · intro _
            have : (cur ++ ' ' :: word).length = cur.length + word.length + 1 := by
              simp [List.length_append]
              omega
            omega
        have := ih hrest acc (cur ++ ' ' :: word) hacc (Or.inr hlOK)
        refine ⟨this.1, this.2.1, ?_⟩
        have hpw1 : pwords (joinSp (g ++ [word])) = g ++ [word] := by
          refine pwords_joinSp ?_
          intro u hu
          rw [List.mem_append, List.mem_singleton] at hu
          rcases hu with hu | hu
          · exact (hgw u hu).1
          · subst hu; exact hword.1
        have hpw2 : pwords (joinSp g) = g := by
          refine pwords_joinSp ?_
          intro u hu
          exact (hgw u hu).1
        rw [this.2.2, hjoin, hgj, hpw1, hpw2]
        simp
    · rename_i hcond
      by_cases hc : cur = []
      · rw [if_pos hc]
        subst hc
        have := ih hrest acc word hacc
          (Or.inr ⟨[word], by simp, by simpa using hword, rfl, by simp⟩)
        refine ⟨this.1, this.2.1, ?_⟩
        rw [this.2.2, pwords_nil, List.append_nil, pwords_of_word hword.1]
        simp
      · rw [if_neg hc]
        rcases hcur with hcur | hcur
        · exact absurd hcur hc
        have hacc2 : ∀ l ∈ acc ++ [cur], lineOK cpl allW l := by
          intro l hl
          rw [List.mem_append, List.mem_singleton] at hl
          rcases hl with hl | hl
          · exact hacc l hl
          · subst hl; exact hcur
        have := ih hrest (acc ++ [cur]) word hacc2
          (Or.inr ⟨[word], by simp, by simpa using hword, rfl, by simp⟩)
        refine ⟨this.1, this.2.1, ?_⟩
        rw [this.2.2, pwords_of_word hword.1]
        simp

theorem wrap_text_lines (text : List Char) (cpl : ℕ) :
    ∀ l ∈ wrap_text text cpl, l = [] ∨ lineOK cpl (pwords text) l := by
  have hws : ∀ u ∈ pwords text, wordOK u ∧ u ∈ pwords text :=
    fun u hu => ⟨pwords_wordOK text u hu, hu⟩
  have hinv := wrapLoop_inv cpl (pwords text) (pwords text) hws [] []
    (by intro l hl; simp at hl) (Or.inl rfl)
  intro l hl
  rw [wrap_text] at hl
  split at hl
  · split at hl
    · rw [List.mem_singleton] at hl
      exact Or.inl hl
    · exact Or.inr (hinv.1 l hl)
  · split at hl
    · rw [List.mem_singleton] at hl
      exact Or.inl hl
    · rw [List.mem_append, List.mem_singleton] at hl
      rcases hl with hl | hl
      · exact Or.inr (hinv.1 l hl)
      · subst hl
        rcases hinv.2.1 with h3 | h3
        · rename_i h2 _
          exact absurd h3 h2
        · exact Or.inr h3

theorem wrap_text_flatMap (text : List Char) (cpl : ℕ) :
    (wrap_text text cpl).flatMap pwords = pwords text := by
  have hws : ∀ u ∈ pwords text, wordOK u ∧ u ∈ pwords text :=
    fun u hu => ⟨pwords_wordOK text u hu, hu⟩
  have hinv := wrapLoop_inv cpl (pwords text) (pwords text) hws [] []
    (by intro l hl; simp at hl) (Or.inl rfl)
  have hpres := hinv.2.2
  rw [List.flatMap_nil, pwords_nil, List.nil_append, List.nil_append] at hpres
  rw [wrap_text]
  split
  · rename_i h2
    split
    · rename_i h1
      rw [h1, List.flatMap_nil, List.nil_append, h2, pwords_nil] at hpres
      simp only [List.flatMap_cons, List.flatMap_nil, List.append_nil, pwords_nil]
      exact hpres
    · rw [h2, pwords_nil, List.append_nil] at hpres
      exact hpres
  · split
    · rename_i habs
      exact absurd habs (by simp)
    · rw [List.flatMap_append]
      simp only [List.flatMap_cons, List.flatMap_nil, List.append_nil]
      exact hpres

theorem wrap_text_ne (text : List Char) (cpl : ℕ) : wrap_text text cpl ≠ [] := by
  rw [wrap_text]
  split
  · split
    · simp
    · rename_i h1
      exact h1
  · split
    · simp
    · simp

theorem wrap_text_of_no_words {text : List Char} (cpl : ℕ)
    (h : pwords text = []) : wrap_text text cpl = [[]] := by
  rw [wrap_text]
  have h0 : wrapLoop cpl [] [] (pwords text) = ([], []) := by rw [h, wrapLoop]
  rw [h0]
  simp

theorem joinSp_eq_flatMap (u : List Char) (g : List (List Char)) :
    joinSp (u :: g) = u ++ g.flatMap (fun v => ' ' :: v) := by
  induction g generalizing u with
  | nil => simp [joinSp]
  | cons v rest ih =>
    rw [joinSp, ih v, List.flatMap_cons]
    simp

theorem length_joinSp_cons (u : List Char) (g : List (List Char)) :
    (joinSp (u :: g)).length = u.length + ((g.map fun w => w.length + 1)).sum := by
  induction g generalizing u with
  | nil => simp [joinSp]
  | cons v rest ih =>
    rw [joinSp_cons u (by simp), List.length_append, List.length_cons, ih v]
    rw [List.map_cons, List.sum_cons]
    omega

theorem wrapLoop_all (cpl : ℕ) :
    ∀ (ws : List (List Char)) (acc : List (List Char)) (cur : List Char),
      cur ≠ [] →
      cur.length + ((ws.map (fun u => u.length + 1)).sum) ≤ cpl →
      wrapLoop cpl acc cur ws = (acc, cur ++ ws.flatMap (fun u => ' ' :: u)) := by
  intro ws
  induction ws with
  | nil =>
    intro acc cur h1 h2
    rw [wrapLoop]
    simp
  | cons w rest ih =>
    intro acc cur h1 h2
    rw [List.map_cons, List.sum_cons] at h2
    rw [wrapLoop, if_pos (by omega : cur.length + w.length + 1 ≤ cpl), if_neg h1]
    rw [ih acc (cur ++ ' ' :: w) (by simp)
      (by rw [List.length_append, List.length_cons]; omega)]
    rw [List.flatMap_cons]
    simp

theorem wrapLoop_single (cpl : ℕ) (u : List Char) :
    wrapLoop cpl [] [] [u] = ([], u) := by
  rw [wrapLoop]
  split
  · rw [if_pos rfl, wrapLoop]
  · rw [if_pos rfl, wrapLoop]

theorem wrap_text_of_lineOK {cpl : ℕ} {allW : List (List Char)}
    {line : List Char} (h : lineOK cpl allW line) :
    wrap_text line cpl = [line] := by
  obtain ⟨g, hgne, hgw, hgj, hglen⟩ := h
  have hpw : pwords line = g := by
    rw [hgj]
    exact pwords_joinSp (fun u hu => (hgw u hu).1)
  have hloop : wrapLoop cpl [] [] (pwords line) = ([], line) := by
    rw [hpw]
    cases g with
    | nil => exact absurd rfl hgne
    | cons u g2 =>
      cases g2 with
      | nil =>
        rw [wrapLoop_single]
        rw [hgj, joinSp]
      | cons v rest =>
        have hlen : line.length ≤ cpl := hglen (by simp)
        have hll : line.length =
            u.length + (((v :: rest).map (fun w => w.length + 1)).sum) := by
          rw [hgj]
          exact length_joinSp_cons u (v :: rest)
        have hS : 1 ≤ ((v :: rest).map (fun w => w.length + 1)).sum := by
          rw [List.map_cons, List.sum_cons]
          omega
        have hcond : List.length ([] : List Char) + u.length + 1 ≤ cpl := by
          rw [List.length_nil]
          omega
        rw [wrapLoop, if_pos hcond, if_pos rfl]
        rw [wrapLoop_all cpl (v :: rest) [] u
          (hgw u (List.mem_cons_self u (v :: rest))).1.1 (by omega)]
        rw [hgj, joinSp_eq_flatMap]
  have hne : line ≠ [] := by
    cases g with
    | nil => exact absurd rfl hgne
    | cons u g2 =>
      rw [hgj, joinSp_eq_flatMap]
      have := (hgw u (List.mem_cons_self u g2)).1.1
      intro hcontra
      rw [List.append_eq_nil] at hcontra
      exact this hcontra.1
  rw [wrap_text, hloop]
  simp [hne]

theorem drawsOf_append (a b : List Item) :
    drawsOf (a ++ b) = drawsOf a ++ drawsOf b := by
  simp [drawsOf]

theorem drawsOK_append {a b : List Item} (ha : drawsOK a) (hb : drawsOK b) :
    drawsOK (a ++ b) := by
  intro c hc
  rw [drawsOf_append, List.mem_append] at hc
  rcases hc with h | h
  · exact ha c h
  · exact hb c h

theorem drawsOK_nil : drawsOK [] := by
  intro c hc
  simp [drawsOf] at hc

theorem drawsOK_noDraw_cons {i : Item} {l : List Item}
    (hi : ∀ c, i ≠ Item.draw c) (hl : drawsOK l) : drawsOK (i :: l) := by
  intro c hc
  cases i with
  | draw d => exact absurd rfl (hi d)
  | bg => exact hl c (by simpa [drawsOf] using hc)
  | bt => exact hl c (by simpa [drawsOf] using hc)
  | et => exact hl c (by simpa [drawsOf] using hc)
  | colorText => exact hl c (by simpa [drawsOf] using hc)

theorem drawsOK_single {c : DrawCmd} (h : (72 : ℚ) < c.y ∧ c.y ≤ 720) :
    drawsOK [Item.draw c] := by
  intro d hd
  simp [drawsOf] at hd
  rwa [hd]

theorem flushPage_stateOK {st : CompState} (h : stateOK st) :
    stateOK (flushPage st) := by
  obtain ⟨hy, hcur, hstr⟩ := h
  refine ⟨?_, drawsOK_nil, ?_⟩
  · norm_num [flushPage, pageHeight, margin]
  · intro s hs
    rw [flushPage] at hs
    simp only [List.mem_append, List.mem_singleton] at hs
    rcases hs with h | h
    · exact hstr s h
    · rwa [h]

theorem flushPage_y (st : CompState) : (flushPage st).y = 720 := by
  norm_num [flushPage, pageHeight, margin]

theorem drawsOK_cur_et {st : CompState} (hcur : drawsOK st.cur) :
    drawsOK (st.cur ++ [Item.et]) := by
  intro c hc
  rw [drawsOf_append] at hc
  simp only [drawsOf, List.filterMap_cons, List.filterMap_nil, List.append_nil] at hc
  exact hcur c hc

theorem drawsOf_draw_single (d : DrawCmd) : drawsOf [Item.draw d] = [d] := rfl

theorem drawsOf_bbc : drawsOf [Item.bg, Item.bt, Item.colorText] = [] := rfl

theorem doLine_stateOK {st : CompState} (isHeading : Bool) (wline : List Char)
    (h : stateOK st) : stateOK (doLine isHeading wline st) := by
  obtain ⟨hy, hcur, hstr⟩ := h
  cases isHeading <;>
    simp only [doLine, Bool.false_eq_true, if_false, if_true, flushPage] <;>
    split_ifs with hguard <;>
    refine ⟨?_, ?_, ?_⟩ <;>
    dsimp only
  · norm_num [pageHeight, margin]
  · intro c hc
    rw [drawsOf_append, drawsOf_draw_single, drawsOf_bbc] at hc
    rw [List.nil_append, List.mem_singleton] at hc
    subst hc
    norm_num [pageHeight, margin]
  · intro s hs
    rw [List.mem_append, List.mem_singleton] at hs
    rcases hs with h1 | h1
    · exact hstr s h1
    · subst h1; exact drawsOK_cur_et hcur
  · push_cast
    linarith
  · intro c hc
    rw [drawsOf_append, drawsOf_draw_single, List.mem_append, List.mem_singleton] at hc
    rcases hc with h1 | h1
    · exact hcur c h1
    · subst h1
      refine ⟨?_, hy⟩
      push_neg at hguard
      norm_num [margin] at hguard
      dsimp only
      linarith
  · exact hstr
  · norm_num [pageHeight, margin]
  · intro c hc
    rw [drawsOf_append, drawsOf_draw_single, drawsOf_bbc] at hc
    rw [List.nil_append, List.mem_singleton] at hc
    subst hc
    norm_num [pageHeight, margin]
  · intro s hs
    rw [List.mem_append, List.mem_singleton] at hs
    rcases hs with h1 | h1
    · exact hstr s h1
    · subst h1; exact drawsOK_cur_et hcur
  · push_cast
    linarith
  · intro c hc
    rw [drawsOf_append, drawsOf_draw_single, List.mem_append, List.mem_singleton] at hc
    rcases hc with h1 | h1
    · exact hcur c h1
    · subst h1
      refine ⟨?_, hy⟩
      push_neg at hguard
      norm_num [margin] at hguard
      dsimp only
      linarith
  · exact hstr

theorem doLine_foldl_stateOK {st : CompState} (isHeading : Bool)
    (ls : List (List Char)) (h : stateOK st) :
    stateOK (ls.foldl (fun st wline => doLine isHeading wline st) st) := by
  induction ls generalizing st with
  | nil => exact h
  | cons l ls ih => exact ih (doLine_stateOK isHeading l h)

theorem doRecord_stateOK {st : CompState} (rec : String × Bool)
    (h : stateOK st) : stateOK (doRecord st rec) := by
  obtain ⟨hy, hcur, hstr⟩ := h
  rw [doRecord]
  by_cases hblank : rec.1 = ""
  · rw [if_pos hblank]
    dsimp only
    by_cases hbrk : st.y - 12 < (margin : ℚ)
    · rw [if_pos hbrk]
      refine ⟨?_, ?_, ?_⟩ <;> dsimp only [flushPage]
      · norm_num [pageHeight, margin]
      · intro c hc
        simp [drawsOf] at hc
      · intro s hs
        rw [List.mem_append, List.mem_singleton] at hs
        rcases hs with h1 | h1
        · exact hstr s h1
        · subst h1; exact drawsOK_cur_et hcur
    · rw [if_neg hbrk]
      refine ⟨?_, hcur, hstr⟩
      show st.y - 12 ≤ 720
      linarith
  · rw [if_neg hblank]
    refine doLine_foldl_stateOK rec.2 _ ?_
    refine ⟨hy, ?_, hstr⟩
    intro c hc
    rw [drawsOf_append] at hc
    simp only [drawsOf, List.filterMap_cons, List.filterMap_nil, List.append_nil] at hc
    exact hcur c hc

theorem foldl_doRecord_stateOK (records : List (String × Bool))
    {st : CompState} (h : stateOK st) :
    stateOK (records.foldl doRecord st) := by
  induction records generalizing st with
  | nil => exact h
  | cons r l ih => exact ih (doRecord_stateOK r h)

theorem initState_stateOK : stateOK initState := by
  refine ⟨by norm_num [initState, pageHeight, margin], ?_, ?_⟩
  · intro c hc
    simp [initState, drawsOf] at hc
  · intro s hs
    simp [initState] at hs

theorem composite_drawsOK (records : List (String × Bool)) :
    ∀ s ∈ composite records, drawsOK s := by
  have hst := foldl_doRecord_stateOK records initState_stateOK
  obtain ⟨hy, hcur, hstr⟩ := hst
  intro s hs
  rw [composite] at hs
  simp only [flushPage, List.mem_append, List.mem_singleton] at hs
  rcases hs with h | h
  · exact hstr s h
  · subst h
    exact drawsOK_cur_et hcur

theorem composite_length (records : List (String × Bool)) :
    1 ≤ (composite records).length := by
  rw [composite]
  simp [flushPage]

theorem eq_of_beqQ {a b : ℚ} (h : beqQ a b = true) : a = b := by
  rw [beqQ, Bool.and_eq_true, beq_iff_eq, beq_iff_eq] at h
  exact Rat.ext h.1 h.2

theorem eq_of_beqDrawCmd {a b : DrawCmd} (h : beqDrawCmd a b = true) : a = b := by
  rw [beqDrawCmd] at h
  simp only [Bool.and_eq_true, beq_iff_eq] at h
  obtain ⟨⟨⟨⟨h1, h2⟩, h3⟩, h4⟩, h5⟩ := h
  cases a; cases b
  simp only at h1 h2 h3 h4 h5
  subst h1; subst h2; subst h5
  rw [eq_of_beqQ h3, eq_of_beqQ h4]

theorem eq_of_beqItem {a b : Item} (h : beqItem a b = true) : a = b := by
  cases a <;> cases b <;> simp only [beqItem] at h <;>
    first
    | rfl
    | rw [eq_of_beqDrawCmd h]
    | exact absurd h (by simp)

theorem eq_of_beqListWith {f : α → α → Bool}
    (hf : ∀ a b, f a b = true → a = b) :
    ∀ {as bs : List α}, beqListWith f as bs = true → as = bs := by
  intro as
  induction as with
  | nil => intro bs h; cases bs; rfl; simp [beqListWith] at h
  | cons a as ih =>
    intro bs h
    cases bs with
    | nil => simp [beqListWith] at h
    | cons b bs =>
      rw [beqListWith, Bool.and_eq_true] at h
      rw [hf a b h.1, ih h.2]

theorem eq_of_beqItems {as bs : List Item}
    (h : beqListWith beqItem as bs = true) : as = bs :=
  eq_of_beqListWith (fun _ _ => eq_of_beqItem) h

theorem eq_of_beqPages {as bs : List (List Item)}
    (h : beqListWith (beqListWith beqItem) as bs = true) : as = bs :=
  eq_of_beqListWith (fun _ _ => eq_of_beqItems) h

/-! ## Claim theorems -/


/-- C9: the escaping applies the backslash substitution first and then
escapes both grouping delimiters, so it acts as the character-wise map
`escChar`; in the result every structurally significant character is
escaped (none introduced by the escaping is left bare), and the original
text is recoverable, so all its significant characters appear escaped. -/
theorem claim_C9 (l : List Char) :
    escape_pdf l = l.flatMap escChar ∧
    wellEscaped (escape_pdf l) = true ∧
    unescape (escape_pdf l) = l :=
  ⟨escape_pdf_eq_flatMap l,
   by rw [escape_pdf_eq_flatMap]; exact wellEscaped_flatMap l,
   by rw [escape_pdf_eq_flatMap]; exact unescape_flatMap l⟩

/-- C4, counterexample: on the single record `("Hi", false)` the only draw
command has `y = 720 = page_height - top_margin` exactly, so y does NOT lie
strictly between the bottom margin and `page_height - top_margin`. -/
theorem claim_C4_counterexample :
    ¬ (∀ s ∈ composite [("Hi", false)], ∀ c ∈ drawsOf s,
        (72 : ℚ) < c.y ∧ c.y < 720) := by
  with_unfolding_all decide

/-- C4 (amended): for every non-empty input sequence of records the
compositor produces at least one page, and every draw command's
y-coordinate lies strictly above the bottom margin (72) and at most
`page_height - top_margin` (720). -/
theorem claim_C4 (records : List (String × Bool)) (_hne : records ≠ []) :
    1 ≤ (composite records).length ∧
    ∀ s ∈ composite records, ∀ c ∈ drawsOf s, (72 : ℚ) < c.y ∧ c.y ≤ 720 :=
  ⟨composite_length records, fun s hs => composite_drawsOK records s hs⟩

theorem claim_C4_witness :
    ([("Hi", false)] : List (String × Bool)) ≠ [] ∧
    (1 ≤ (composite [("Hi", false)]).length ∧
     ∀ s ∈ composite [("Hi", false)], ∀ c ∈ drawsOf s,
       (72 : ℚ) < c.y ∧ c.y ≤ 720) :=
  ⟨by decide, claim_C4 [("Hi", false)] (by decide)⟩

/-- C5, counterexample: the scenario-A input produces one page whose
content has exactly TWO draw commands, not three — the blank middle record
emits no draw command. -/
theorem claim_C5_counterexample :
    (composite scenarioA).length = 1 ∧
    ((composite scenarioA).map drawsOf).flatten.length = 2 ∧ (2 : ℕ) ≠ 3 := by
  refine ⟨?_, ?_, by decide⟩ <;> with_unfolding_all decide

/-- C5 (amended): scenario A produces exactly one page with exactly two
draw commands: the first horizontally centered by the approximate-width
formula (x = 286, above the left margin 72) near the top of the page
(y = 720) at font size 16, and the second (not third) at the left margin
(x = 72) at font size 11. -/
theorem claim_C5 :
    composite scenarioA = [[Item.bg, Item.bt, Item.colorText,
      Item.draw ⟨"/F2", 16, 286, 720, "Title".data⟩,
      Item.colorText,
      Item.draw ⟨"/F1", 11, 72, 3428 / 5, "Hello world.".data⟩,
      Item.et]] ∧
    max (72 : ℚ) ((612 - 5 * 16 * 0.5) / 2) = 286 ∧
    (72 : ℚ) < 286 ∧
    (720 : ℚ) - 16 * 1.4 - 12 = 3428 / 5 := by
  refine ⟨?_, by rw [max_def]; norm_num, by norm_num, by norm_num⟩
  exact eq_of_beqPages (by with_unfolding_all decide)

/-- C10: on the empty record sequence the final flush still runs, sealing
exactly one page: one content-stream object (identity 5) and one page
object (identity 6) are allocated, the page tree's child count is 1, and
the single content stream consists of the background fill and a BT/ET
pair with no text-show operator. -/
theorem claim_C10 :
    composite [] = [[Item.bg, Item.bt, Item.et]] ∧
    (allocPages ((composite []).map renderStream)).1 = [(6, 5)] ∧
    (allocPages ((composite []).map renderStream)).2.objId = 6 ∧
    kidsBody [(6, 5)] = "<< /Type /Pages /Kids [6 0 R] /Count 1 >>".data ∧
    renderStream [Item.bg, Item.bt, Item.et] =
      "0.231 0.231 0.231 rg 0 0 612 792 re f\nBT\nET".data ∧
    "re f".data <:+: renderStream [Item.bg, Item.bt, Item.et] ∧
    "BT".data <:+: renderStream [Item.bg, Item.bt, Item.et] ∧
    "ET".data <:+: renderStream [Item.bg, Item.bt, Item.et] ∧
    ¬ "Tj".data <:+: renderStream [Item.bg, Item.bt, Item.et] := by
  with_unfolding_all decide

/-- C2: for every input text and positive max_width, every line the
wrapper returns has character count at most max_width, except that a
single word of the text longer than max_width is returned verbatim as its
own (unsplit) line. -/
theorem claim_C2 (text : List Char) (cpl : ℕ) (_hpos : 0 < cpl) :
    ∀ l ∈ wrap_text text cpl,
      l.length ≤ cpl ∨ (cpl < l.length ∧ l ∈ pwords text) := by
  intro l hl
  rcases wrap_text_lines text cpl l hl with h | h
  · left
    subst h
    exact Nat.zero_le cpl
  · obtain ⟨g, hgne, hgw, hgj, hglen⟩ := h
    by_cases hle : l.length ≤ cpl
    · exact Or.inl hle
    · right
      refine ⟨Nat.lt_of_not_le hle, ?_⟩
      cases g with
      | nil => exact absurd rfl hgne
      | cons u g2 =>
        cases g2 with
        | nil =>
          rw [hgj, joinSp]
          exact (hgw u (List.mem_cons_self u [])).2
        | cons v rest => exact absurd (hglen (by simp)) hle

theorem claim_C2_witness :
    0 < 5 ∧ ∀ l ∈ wrap_text "hello world".data 5,
      l.length ≤ 5 ∨ (5 < l.length ∧ l ∈ pwords "hello world".data) :=
  ⟨by decide, claim_C2 "hello world".data 5 (by decide)⟩

/-- C3: concatenating the whitespace-split words of all wrapped lines, in
order, yields exactly the word sequence of the original text; the result
is never the empty sequence, and when the input has no words it is the
single-element sequence holding the empty string. -/
theorem claim_C3 (text : List Char) (cpl : ℕ) :
    (wrap_text text cpl).flatMap pwords = pwords text ∧
    wrap_text text cpl ≠ [] ∧
    (pwords text = [] → wrap_text text cpl = [[]]) :=
  ⟨wrap_text_flatMap text cpl, wrap_text_ne text cpl,
   fun h => wrap_text_of_no_words cpl h⟩

theorem claim_C3_witness :
    ((wrap_text " ".data 7).flatMap pwords = pwords " ".data ∧
     wrap_text " ".data 7 ≠ [] ∧
     (pwords " ".data = [] → wrap_text " ".data 7 = [[]])) ∧
    pwords " ".data = [] ∧ wrap_text " ".data 7 = [[]] :=
  ⟨claim_C3 " ".data 7, by decide, (claim_C3 " ".data 7).2.2 (by decide)⟩

/-- C7: wrapping any line that the wrapper itself produced at some
max_width, again at the same max_width, returns it unchanged as a
single-element sequence. -/
theorem claim_C7 (text : List Char) (cpl : ℕ) (line : List Char)
    (hmem : line ∈ wrap_text text cpl) :
    wrap_text line cpl = [line] := by
  rcases wrap_text_lines text cpl line hmem with h | h
  · subst h
    exact wrap_text_of_no_words cpl rfl
  · exact wrap_text_of_lineOK h

theorem claim_C7_witness :
    "ab cd".data ∈ wrap_text "ab cd".data 5 ∧
    wrap_text "ab cd".data 5 = ["ab cd".data] :=
  ⟨by decide, claim_C7 "ab cd".data 5 "ab cd".data (by decide)⟩

/-! ## Writer and allocation lemmas -/

theorem pref_append {m a : List Char} (b : List Char) (h : m <+: a) :
    m <+: a ++ b := by
  obtain ⟨t, ht⟩ := h
  exact ⟨t ++ b, by rw [← List.append_assoc, ht]⟩

theorem write_obj_valid {wr : Writer} (h : offsetsValid wr) (oid : ℕ)
    (data : List Char) : offsetsValid (write_obj wr oid data) := by
  intro p hp
  rw [write_obj] at hp
  dsimp only at hp
  rw [List.mem_append, List.mem_singleton] at hp
  rw [write_obj]
  dsimp only
  rcases hp with hp | hp
  · obtain ⟨h1, h2⟩ := h p hp
    refine ⟨by rw [List.length_append]; omega, ?_⟩
    rw [List.drop_append_of_le_length h1]
    exact pref_append _ h2
  · subst hp
    dsimp only
    refine ⟨by rw [List.length_append]; omega, ?_⟩
    rw [List.drop_left]
    exact ⟨data ++ "\nendobj\n".data, by rw [List.append_assoc]⟩

theorem writeStep_valid (objs : List (ℕ × Option (List Char))) {wr : Writer}
    (h : offsetsValid wr) (ps : ℕ × ℕ) : offsetsValid (writeStep objs wr ps) :=
  write_obj_valid (write_obj_valid h _ _) _ _

theorem foldl_writeStep_valid (objs : List (ℕ × Option (List Char)))
    (pids : List (ℕ × ℕ)) :
    ∀ {wr : Writer}, offsetsValid wr →
      offsetsValid (pids.foldl (writeStep objs) wr) := by
  induction pids with
  | nil => intro wr h; exact h
  | cons p rest ih => intro wr h; exact ih (writeStep_valid objs h p)

theorem writeFixed_valid (cs : List (List Char)) :
    offsetsValid (writeFixed cs) := by
  rw [writeFixed]
  refine write_obj_valid (write_obj_valid (write_obj_valid (write_obj_valid ?_ _ _) _ _) _ _) _ _
  intro p hp
  simp at hp

theorem writeAll_valid (cs : List (List Char)) :
    offsetsValid (writeAll cs) := by
  rw [writeAll]
  exact foldl_writeStep_valid _ _ (writeFixed_valid cs)

theorem write_obj_offsets_fst (wr : Writer) (oid : ℕ) (data : List Char) :
    (write_obj wr oid data).offsets.map Prod.fst =
      wr.offsets.map Prod.fst ++ [oid] := by
  rw [write_obj]
  simp

theorem foldl_writeStep_offsets_fst (objs : List (ℕ × Option (List Char)))
    (pids : List (ℕ × ℕ)) :
    ∀ wr : Writer, (pids.foldl (writeStep objs) wr).offsets.map Prod.fst =
      wr.offsets.map Prod.fst ++ pids.flatMap (fun ps => [ps.2, ps.1]) := by
  induction pids with
  | nil => intro wr; simp
  | cons p rest ih =>
    intro wr
    rw [List.foldl_cons, ih, writeStep, write_obj_offsets_fst,
      write_obj_offsets_fst, List.flatMap_cons]
    simp

theorem writeAll_offsets_fst (cs : List (List Char)) :
    (writeAll cs).offsets.map Prod.fst =
      [catalog_id, pages_id, font_id, font_bold_id] ++
        (allocPages cs).1.flatMap (fun ps => [ps.2, ps.1]) := by
  rw [writeAll, foldl_writeStep_offsets_fst, writeFixed,
    write_obj_offsets_fst, write_obj_offsets_fst, write_obj_offsets_fst,
    write_obj_offsets_fst]
  simp

theorem foldl_allocStep (cs : List (List Char)) :
    ∀ (pids : List (ℕ × ℕ)) (a : Alloc),
      (cs.foldl allocStep (pids, a)).1 =
        pids ++ (List.range cs.length).map
          (fun k => (a.objId + 2 * k + 2, a.objId + 2 * k + 1)) ∧
      (cs.foldl allocStep (pids, a)).2.objId = a.objId + 2 * cs.length := by
  induction cs with
  | nil => intro pids a; simp
  | cons sb rest ih =>
    intro pids a
    rw [List.foldl_cons]
    have hstep : allocStep (pids, a) sb =
        (pids ++ [(a.objId + 2, a.objId + 1)],
         { objId := a.objId + 2,
           objects := (a.objects ++ [(a.objId + 1, some sb)]) ++
             [(a.objId + 2, none)] }) := rfl
    rw [hstep]
    obtain ⟨h1, h2⟩ := ih (pids ++ [(a.objId + 2, a.objId + 1)])
      { objId := a.objId + 2,
        objects := (a.objects ++ [(a.objId + 1, some sb)]) ++
          [(a.objId + 2, none)] }
    constructor
    · rw [h1]
      have hb : ({ objId := a.objId + 2,
                   objects := (a.objects ++ [(a.objId + 1, some sb)]) ++
                     [(a.objId + 2, none)] } : Alloc).objId = a.objId + 2 := rfl
      simp only [hb]
      rw [List.length_cons, List.range_succ_eq_map, List.map_cons,
        List.map_map, List.append_assoc, List.singleton_append]
      congr 1
      congr 1
      refine List.map_congr_left ?_
      intro k _
      dsimp only [Function.comp_apply]
      rw [Prod.mk.injEq]
      exact ⟨by omega, by omega⟩
    · rw [h2]
      show a.objId + 2 + 2 * rest.length = a.objId + 2 * (sb :: rest).length
      rw [List.length_cons]
      omega

theorem allocPages_fst (cs : List (List Char)) :
    (allocPages cs).1 = (List.range cs.length).map
      (fun k => (2 * k + 6, 2 * k + 5)) := by
  rw [allocPages]
  have h := (foldl_allocStep cs [] allocFixed).1
  rw [h, List.nil_append]
  refine List.map_congr_left ?_
  intro k _
  have h4 : allocFixed.objId = 4 := rfl
  congr 1 <;> omega

theorem allocPages_objId (cs : List (List Char)) :
    (allocPages cs).2.objId = 2 * cs.length + 4 := by
  rw [allocPages]
  have h := (foldl_allocStep cs [] allocFixed).2
  rw [h]
  have h4 : allocFixed.objId = 4 := rfl
  omega

theorem flat_pairs (P : ℕ) :
    (List.range P).flatMap (fun k => [2 * k + 5, 2 * k + 6]) =
      List.range' 5 (2 * P) := by
  induction P with
  | zero => rfl
  | succ n ih =>
    rw [List.range_succ, List.flatMap_append, ih, List.flatMap_cons,
      List.flatMap_nil, List.append_nil]
    have hx : [2 * n + 5, 2 * n + 6] = List.range' (5 + 2 * n) 2 := by
      rw [List.range'_succ, List.range'_succ]
      congr 1
      · omega
      congr 1
      · omega
    rw [hx, List.range'_append_1]
    congr 1
    omega

theorem writeAll_ids (cs : List (List Char)) :
    (writeAll cs).offsets.map Prod.fst = List.range' 1 (2 * cs.length + 4) := by
  rw [writeAll_offsets_fst, allocPages_fst]
  have hflat : ((List.range cs.length).map
        (fun k => (2 * k + 6, 2 * k + 5))).flatMap (fun ps => [ps.2, ps.1]) =
      (List.range cs.length).flatMap (fun k => [2 * k + 5, 2 * k + 6]) := by
    rw [List.flatMap_map]
  rw [hflat, flat_pairs]
  have h4 : [catalog_id, pages_id, font_id, font_bold_id] = List.range' 1 4 := rfl
  rw [h4]
  have h5 : (5 : ℕ) = 1 + 4 := rfl
  rw [h5, List.range'_append_1]

theorem sorted_lt_range1 (s n : ℕ) : (List.range' s n).Sorted (· < ·) := by
  rw [List.Sorted, ← List.chain'_iff_pairwise]
  cases n with
  | zero => simp
  | succ m =>
    rw [List.range'_succ]
    exact List.chain_lt_range' s m Nat.one_pos

/-! ## Claim theorems for the file assembler -/


/-- C8: object identities are allocated monotonically from 1 in the order
catalog (1), page tree (2), regular font (3), bold font (4), then per page
k the content stream (5+2k) and the page (6+2k); bodies are written in
ascending identity order (the write order is exactly 1..highest); and the
cross-reference section has exactly highest+1 entry lines, the free entry
for identity 0 first, then one per object. -/
theorem claim_C8 (cs : List (List Char)) :
    catalog_id = 1 ∧ pages_id = 2 ∧ font_id = 3 ∧ font_bold_id = 4 ∧
    (allocPages cs).1 =
      (List.range cs.length).map (fun k => (2 * k + 6, 2 * k + 5)) ∧
    (allocPages cs).2.objId = 2 * cs.length + 4 ∧
    (writeAll cs).offsets.map Prod.fst = List.range' 1 (2 * cs.length + 4) ∧
    List.Sorted (· < ·) ((writeAll cs).offsets.map Prod.fst) ∧
    (xrefEntryLines (allocPages cs).2.objId (writeAll cs).offsets).length =
      (allocPages cs).2.objId + 1 ∧
    (xrefEntryLines (allocPages cs).2.objId (writeAll cs).offsets).head? =
      some freeEntryLine := by
  refine ⟨rfl, rfl, rfl, rfl, allocPages_fst cs, allocPages_objId cs,
    writeAll_ids cs, ?_, ?_, rfl⟩
  · rw [writeAll_ids cs]
    exact sorted_lt_range1 1 _
  · rw [xrefEntryLines]
    simp

/-- C1: every recorded cross-reference offset, measured from the start of
the whole byte stream (header included), points exactly at the start of
that object's marker in the assembled bytes; every allocated identity has
a recorded offset; and the startxref value is the offset at which the
xref keyword begins. -/
theorem claim_C1 (cs : List (List Char)) :
    (∀ p ∈ (writeAll cs).offsets,
        objMarker p.1 <+: (assembledBytes cs).drop p.2) ∧
    (∀ oid, 1 ≤ oid → oid ≤ (allocPages cs).2.objId →
        ∃ off, (oid, off) ∈ (writeAll cs).offsets) ∧
    "xref".data <+: (assembledBytes cs).drop (xrefOffsetOf cs) := by
  refine ⟨?_, ?_, ?_⟩
  · intro p hp
    obtain ⟨h1, h2⟩ := writeAll_valid cs p hp
    rw [assembledBytes, List.drop_append_of_le_length h1]
    exact pref_append _ h2
  · intro oid h1 h2
    have hmem : oid ∈ (writeAll cs).offsets.map Prod.fst := by
      rw [writeAll_ids cs, List.mem_range']
      rw [allocPages_objId] at h2
      exact ⟨oid - 1, by omega, by omega⟩
    rw [List.mem_map] at hmem
    obtain ⟨p, hp, hpe⟩ := hmem
    refine ⟨p.2, ?_⟩
    rw [← hpe]
    exact hp
  · rw [assembledBytes, xrefOffsetOf, List.drop_left, tailBytes]
    exact pref_append _ (pref_append _ (pref_append _ (pref_append _
      (pref_append _ (pref_append _ (pref_append _ (pref_append _
        (pref_append _ (by decide)))))))))

theorem claim_C1_witness :
    ((1, 9) ∈ (writeAll []).offsets ∧
     objMarker 1 <+: (assembledBytes []).drop 9) ∧
    (1 ≤ 1 ∧ 1 ≤ (allocPages []).2.objId ∧
     ∃ off, (1, off) ∈ (writeAll []).offsets) ∧
    "xref".data <+: (assembledBytes []).drop (xrefOffsetOf []) :=
  ⟨⟨by decide, (claim_C1 []).1 (1, 9) (by decide)⟩,
   ⟨by decide, by decide, (claim_C1 []).2.1 1 (by decide) (by decide)⟩,
   (claim_C1 []).2.2⟩

theorem c6_bounded : ∀ n, n < 85 → 43 ≤ n →
    (composite (scenarioB n)).length = 2 ∧
    (((composite (scenarioB n)).map drawsOf).getD 0 []).length = 42 ∧
    (((composite (scenarioB n)).map drawsOf).getD 1 []).length = n - 42 ∧
    (((composite (scenarioB n)).map drawsOf).getD 1 []).head? =
      some ⟨"/F1", 11, 72, 720, (toString 42).data⟩ := by
  with_unfolding_all decide

/-- C6: for non-emphasized records whose cumulative line height
(11 × 1.4 per record) exceeds 648 but not twice 648, the compositor
produces exactly two pages; the first page carries 42 draw commands, the
second the remaining n − 42; the overflowing wrapped line (record index
42) is the first draw command of page two, drawn at y = 720, the reset
initial cursor value. -/
theorem claim_C6 (n : ℕ)
    (h1 : (648 : ℚ) < (n : ℚ) * (11 * 1.4))
    (h2 : (n : ℚ) * (11 * 1.4) ≤ 2 * 648) :
    (composite (scenarioB n)).length = 2 ∧
    (((composite (scenarioB n)).map drawsOf).getD 0 []).length = 42 ∧
    (((composite (scenarioB n)).map drawsOf).getD 1 []).length = n - 42 ∧
    (((composite (scenarioB n)).map drawsOf).getD 1 []).head? =
      some ⟨"/F1", 11, 72, 720, (toString 42).data⟩ := by
  have hn1 : 43 ≤ n := by
    by_contra hc
    push_neg at hc
    have hle : (n : ℚ) ≤ 42 := by
      exact_mod_cast Nat.le_of_lt_succ hc
    have h3 : (n : ℚ) * (11 * 1.4) ≤ 42 * (11 * 1.4) :=
      mul_le_mul_of_nonneg_right hle (by norm_num)
    linarith
  have hn2 : n ≤ 84 := by
    by_contra hc
    push_neg at hc
    have hge : (85 : ℚ) ≤ (n : ℚ) := by
      exact_mod_cast hc
    have h3 : (85 : ℚ) * (11 * 1.4) ≤ (n : ℚ) * (11 * 1.4) :=
      mul_le_mul_of_nonneg_right hge (by norm_num)
    linarith
  exact c6_bounded n (by omega) hn1

theorem claim_C6_witness :
    ((648 : ℚ) < (50 : ℕ) * (11 * 1.4) ∧
     ((50 : ℕ) : ℚ) * (11 * 1.4) ≤ 2 * 648) ∧
    ((composite (scenarioB 50)).length = 2 ∧
     (((composite (scenarioB 50)).map drawsOf).getD 0 []).length = 42 ∧
     (((composite (scenarioB 50)).map drawsOf).getD 1 []).length = 50 - 42 ∧
     (((composite (scenarioB 50)).map drawsOf).getD 1 []).head? =
       some ⟨"/F1", 11, 72, 720, (toString 42).data⟩) :=
  ⟨⟨by norm_num, by norm_num⟩, claim_C6 50 (by norm_num) (by norm_num)⟩

end Docgen
